import Mathlib

/-!
# Book Character Tracker — verification of the identity/merge core

Shallow embedding of the character-tracking core of the repository:

* `src/services/characterExtraction.ts` (`CharacterExtractionService`):
  `normalizeCharacterName`, `findSimilarCharacterNames`,
  `processGeminiResponse`, `updateExistingCharacter`, `createNewCharacter`,
  `processRelationships`;
* `src/db/services.ts` (`CharacterService`): `saveCharacters`,
  `getCharactersForBook`, `getCharactersUpToChapter`, `findCharacterByName`,
  `mergeCharacters`;
* the chapter-scoped filters of `CharacterDetail.tsx` / `CharacterMap`
  (`prepareGraphData`).

The Dexie `characters` table is modelled as a list of `Character` records
keyed by `id` (`Store`), with `getChar`/`putChar`/`deleteChar` mirroring
`get`/`put`/`delete`.  JavaScript strings are Lean `String`s; the regex
operations of `normalizeCharacterName` are implemented character-by-character
on `List Char` (see the comments at each definition).
-/

/-- JS `\s` on the characters that actually occur in names: space, tab,
newline, carriage return (mirrors the whitespace the regexes in
`normalizeCharacterName` split on). -/
def wsP (c : Char) : Bool := c = ' ' || c = '\t' || c = '\n' || c = '\r'

/-- Lowercasing a character sequence (JS `String.prototype.toLowerCase`,
ASCII range). -/
def lowerL (l : List Char) : List Char := l.map Char.toLower

/-- Lowercasing a string (JS `toLowerCase`). -/
def lowerS (s : String) : String := ⟨lowerL s.data⟩

/-- Case-insensitive equality of character sequences (the `/i` regex flag). -/
def ciEq (a b : List Char) : Bool := decide (lowerL a = lowerL b)

/-- JS `String.prototype.split(sep)` semantics on a character predicate:
splits at every separator character, keeping empty fragments (so
`splitP p [] = [[]]`, as `"".split` yields `[""]`).  `split(/\s+/)` on a
trimmed string differs from `splitP wsP` only by empty fragments between
consecutive separators, and every use in the source immediately discards
fragments of length ≤ 1, so the two agree after that filter. -/
def splitP (p : Char → Bool) (l : List Char) : List (List Char) :=
  l.splitOnP p

/-- JS `String.prototype.trim` (both ends). -/
def trimL (l : List Char) : List Char :=
  ((l.dropWhile wsP).reverse.dropWhile wsP).reverse

/-- The honorific alternation of the regex
`/^(Mr|Mrs|Ms|Miss|Dr|Prof|Sir|Lady|Lord)\s+/i`, in alternation order. -/
def honorifics : List String :=
  ["Mr", "Mrs", "Ms", "Miss", "Dr", "Prof", "Sir", "Lady", "Lord"]

/-- The suffix alternation of the regex `/\s+(Jr|Sr|III|IV)\s*$/i`. -/
def genSuffixes : List String := ["Jr", "Sr", "III", "IV"]

/-- One alternative of the leading-honorific regex: the string must start
(case-insensitively) with `h` immediately followed by at least one
whitespace character; the honorific and the whole greedy `\s+` run are
removed. -/
def honMatch (h : List Char) (l : List Char) : Option (List Char) :=
  match l.drop h.length with
  | c :: rest2 =>
    if ciEq (l.take h.length) h && wsP c then some (rest2.dropWhile wsP) else none
  | [] => none

/-- `name.replace(/^(Mr|Mrs|Ms|Miss|Dr|Prof|Sir|Lady|Lord)\s+/i, '')`. -/
def stripHonorificL (l : List Char) : List Char :=
  ((honorifics.map String.data).findSome? (fun h => honMatch h l)).getD l

/-- One alternative of the trailing-suffix regex, working on the reversed
string with trailing whitespace already removed: the reversed string must
start with the reversed suffix followed by at least one whitespace character
(the regex's `\s+`); the suffix and the whole whitespace run before it are
removed. -/
def sufMatch (sfx : List Char) (r1 : List Char) : Option (List Char) :=
  match r1.drop sfx.length with
  | c :: _ =>
    if ciEq (r1.take sfx.length) sfx.reverse && wsP c then
      some ((r1.drop sfx.length).dropWhile wsP)
    else none
  | [] => none

/-- `.replace(/\s+(Jr|Sr|III|IV)\s*$/i, '')`: a match must end at the end of
the string (modulo trailing whitespace, `\s*$`), so the suffix must be the
final whitespace-separated token and the leftmost match starts at the
beginning of the whitespace run before it. -/
def stripSuffixL (l : List Char) : List Char :=
  let r1 := l.reverse.dropWhile wsP
  match (genSuffixes.map String.data).findSome? (fun s => sufMatch s r1) with
  | some r2 => r2.reverse
  | none => l

/-- `CharacterExtractionService.normalizeCharacterName`: strip a leading
honorific, strip a trailing generational suffix, trim, split on whitespace,
drop fragments of length ≤ 1, rejoin with single spaces. -/
def normalizeL (l : List Char) : List Char :=
  let cleanName := trimL (stripSuffixL (stripHonorificL l))
  let parts := (splitP wsP cleanName).filter (fun t => t.length > 1)
  List.intercalate [' '] parts

/-- String wrapper for `normalizeCharacterName`. -/
def normalizeCharacterName (name : String) : String := ⟨normalizeL name.data⟩

/-! ## Data model (`src/types/index.ts`) -/

/-- `Character.status : 'Alive' | 'Dead' | 'Unknown'`. -/
inductive Status where
  | alive | dead | unknown
deriving DecidableEq, Repr

/-- `Character.relevance : 'Major' | 'Supporting' | 'Minor'`. -/
inductive Relevance where
  | major | supporting | minor
deriving DecidableEq, Repr

/-- `Relationship.type`. -/
inductive RelType where
  | family | romantic | conflict | professional | friendship | other
deriving DecidableEq, Repr

/-- `interface Relationship`. -/
structure Relationship where
  targetCharacterId : String
  type : RelType
  description : String
  establishedInChapter : Nat
deriving DecidableEq, Repr

/-- `interface ChapterHistory`. -/
structure ChapterHistory where
  chapter : Nat
  updates : List String
deriving DecidableEq, Repr

/-- `interface Character`.  Optional descriptive strings are `Option`;
`aliases?: string[]` is a plain list, with `[]` standing for the absent
field (the source only ever reads it as `aliases || []`). -/
structure Character where
  id : String
  bookId : String
  name : String
  occupation : Option String
  age : Option String
  location : Option String
  status : Status
  relevance : Relevance
  relationships : List Relationship
  firstAppearance : Nat
  lastMentioned : Nat
  briefDescription : Option String
  chapterHistory : List ChapterHistory
  mentionCount : Nat
  aliases : List String
deriving DecidableEq, Repr

/-- One relationship mention inside `ExtractedCharacterData`. -/
structure ExtractedRel where
  targetName : String
  type : RelType
  description : String
deriving DecidableEq, Repr

/-- `interface ExtractedCharacterData` — one candidate observation from the
AI response.  Fields that the JSON may omit (the source guards them with
truthiness checks despite the TS type) are `Option`. -/
structure ExtractedCharacterData where
  name : String
  occupation : Option String
  age : Option String
  location : Option String
  status : Option Status
  relevance : Option Relevance
  briefDescription : Option String
  relationships : List ExtractedRel
deriving DecidableEq, Repr

/-! ## Persistence model (Dexie `characters` table) -/

/-- The `characters` table: a list of records keyed by `id`. -/
abbrev Store := List Character

/-- `db.characters.get(id)`. -/
def getChar (st : Store) (i : String) : Option Character :=
  st.find? (fun c => c.id = i)

/-- `db.characters.put(c)`: replace the record with the same primary key, or
add the record if the key is absent. -/
def putChar (st : Store) (c : Character) : Store :=
  if st.any (fun d => d.id = c.id) then
    st.map (fun d => if d.id = c.id then c else d)
  else st ++ [c]

/-- `db.characters.delete(id)`. -/
def deleteChar (st : Store) (i : String) : Store :=
  st.filter (fun c => c.id ≠ i)

/-- `CharacterService.getCharactersForBook`:
`db.characters.where('bookId').equals(bookId).toArray()`. -/
def getCharactersForBook (st : Store) (bookId : String) : List Character :=
  st.filter (fun c => c.bookId = bookId)

/-- `CharacterService.getCharactersUpToChapter`: characters of the book with
`firstAppearance <= maxChapter`. -/
def getCharactersUpToChapter (st : Store) (bookId : String) (maxChapter : Nat) :
    List Character :=
  (getCharactersForBook st bookId).filter
    (fun character => character.firstAppearance ≤ maxChapter)

/-- `CharacterService.findCharacterByName`: first character of the book whose
name equals `name` case-insensitively. -/
def findCharacterByName (st : Store) (bookId : String) (name : String) :
    Option Character :=
  st.find? (fun c => c.bookId = bookId ∧ lowerS c.name = lowerS name)

/-- `CharacterService.saveCharacters`: stamp `bookId` onto every record, then
`bulkPut`. -/
def saveCharacters (st : Store) (bookId : String) (characters : List Character) :
    Store :=
  (characters.map (fun c => { c with bookId := bookId })).foldl putChar st

/-! ## Identity resolver (`findSimilarCharacterNames`) -/

/-- The `commonNicknames` table, as an association list in source order. -/
def commonNicknames : List (String × List String) :=
  [("william", ["bill", "billy", "will"]),
   ("robert", ["bob", "bobby", "rob"]),
   ("richard", ["rick", "dick", "rich"]),
   ("elizabeth", ["liz", "beth", "betty"]),
   ("margaret", ["meg", "maggie", "peggy"]),
   ("katherine", ["kate", "katie", "kathy"]),
   ("michael", ["mike", "mick"]),
   ("christopher", ["chris"]),
   ("anthony", ["tony"]),
   ("benjamin", ["ben"]),
   ("samuel", ["sam"]),
   ("alexander", ["alex"]),
   ("nicholas", ["nick"])]

/-- `commonNicknames[key]` lookup. -/
def nickTable (key : String) : Option (List String) :=
  (commonNicknames.find? (fun p => p.1 = key)).map (fun p => p.2)

/-- The inner `checkNickname(full, short)` closure: table hit in either
direction, or `short` (≥ 3 chars) is a prefix of `full`. -/
def checkNickname (full short : String) : Bool :=
  let fullLower := lowerS full
  let shortLower := lowerS short
  (match nickTable fullLower with
   | some nicks => shortLower ∈ nicks
   | none => false) ||
  (match nickTable shortLower with
   | some nicks => fullLower ∈ nicks
   | none => false) ||
  (shortLower.length ≥ 3 && shortLower.data.isPrefixOf fullLower.data)

/-- `parts[0][0]` — JS indexing past the end yields `undefined`, and
`undefined === undefined` is true, so the first characters are compared as
`Option Char`. -/
def firstCharOfFirstPart (parts : List String) : Option Char :=
  (parts.headD "").data.head?

/-- `s.split(' ')` (single-space separator, empty fragments kept). -/
def splitSpace (s : String) : List String :=
  (splitP (fun c => c = ' ') s.data).map (fun l => ⟨l⟩)

/-- The per-character body of the `findSimilarCharacterNames` loop: the four
match rules tried in order against one existing character (the book check is
done by the caller loop).  Returns true iff any rule hits. -/
def nameRulesMatch (targetNormalized : String) (targetParts : List String)
    (character : Character) : Bool :=
  let existingNormalized := lowerS (normalizeCharacterName character.name)
  let existingParts := splitSpace existingNormalized
  -- exact match after normalization
  if targetNormalized = existingNormalized then true
  -- one name contained in the other's token list (single-token side, > 2 chars)
  else if targetParts.length = 1 && existingParts.length > 1 &&
      existingParts.contains (targetParts.headD "") &&
      (targetParts.headD "").length > 2 then true
  else if existingParts.length = 1 && targetParts.length > 1 &&
      targetParts.contains (existingParts.headD "") &&
      (existingParts.headD "").length > 2 then true
  -- last-name match (> 2 chars) plus matching first letter of first name
  else if targetParts.length > 1 && existingParts.length > 1 &&
      (targetParts.getLastD "") = (existingParts.getLastD "") &&
      (targetParts.getLastD "").length > 2 &&
      firstCharOfFirstPart targetParts = firstCharOfFirstPart existingParts then
    true
  -- nickname patterns between first names
  else if (checkNickname (targetParts.headD "") (existingParts.headD "") ||
      checkNickname (existingParts.headD "") (targetParts.headD "")) then
    if targetParts.length > 1 && existingParts.length > 1 then
      (targetParts.getLastD "") = (existingParts.getLastD "")
    else true
  else false

/-- `CharacterExtractionService.findSimilarCharacterNames`: first existing
character of the book (in iteration order) matched by any rule. -/
def findSimilarCharacterNames (bookId : String) (targetName : String)
    (existingCharacters : List Character) : Option Character :=
  let targetNormalized := lowerS (normalizeCharacterName targetName)
  let targetParts := splitSpace targetNormalized
  existingCharacters.find? (fun character =>
    character.bookId = bookId &&
    nameRulesMatch targetNormalized targetParts character)

/-! ## Merge engine (`CharacterService.mergeCharacters`) -/

/-- The two `throw`s at the head of `mergeCharacters` ('Source or target
character not found', 'Cannot merge characters from different books'; the
spec's `NotFoundError` / `CrossBookMergeError`). -/
inductive MergeErr where
  | notFound | crossBook
deriving DecidableEq, Repr

/-- Result of a merge call: the table contents afterwards, plus the error if
one was thrown.  Both throws happen before any write, so an error outcome
carries the unchanged table. -/
structure MergeOutcome where
  store : Store
  error : Option MergeErr
deriving DecidableEq, Repr

/-- Rewrite of one character in the reference-repair loop of
`mergeCharacters`: `rel.targetCharacterId === sourceCharacterId` edges are
repointed at `targetCharacterId`, everything else kept. -/
def rewriteRels (sourceCharacterId targetCharacterId : String)
    (char : Character) : Character :=
  { char with
    relationships := char.relationships.map (fun rel =>
      if rel.targetCharacterId = sourceCharacterId then
        { rel with targetCharacterId := targetCharacterId }
      else rel) }

/-- The reference-repair loop: iterate over the snapshot `allCharacters` of
the book, and `put` a character back only when one of its edges changed
(the `updated` flag). -/
def mergePass (st : Store) (allCharacters : List Character)
    (sourceCharacterId targetCharacterId : String) : Store :=
  allCharacters.foldl (fun acc char =>
    if char.relationships.any
        (fun rel => rel.targetCharacterId = sourceCharacterId) then
      putChar acc (rewriteRels sourceCharacterId targetCharacterId char)
    else acc) st

/-- The duplicate filter of the JS merge:
`arr.filter((alias, index, arr) => arr.indexOf(alias) === index)` keeps the
first occurrence of each string. -/
def jsDedupAux : List String → List String → List String
  | [], _ => []
  | x :: xs, seen =>
    if x ∈ seen then jsDedupAux xs seen else x :: jsDedupAux xs (x :: seen)

/-- Remove duplicates, keeping first occurrences. -/
def jsDedup (l : List String) : List String := jsDedupAux l []

/-- The merged record built from the target as base (`{...targetChar, ...}`). -/
def buildMergedChar (sourceChar targetChar : Character) : Character :=
  { targetChar with
    mentionCount := targetChar.mentionCount + sourceChar.mentionCount,
    firstAppearance := min targetChar.firstAppearance sourceChar.firstAppearance,
    relationships :=
      targetChar.relationships ++
      sourceChar.relationships.filter (fun sourceRel =>
        ¬ targetChar.relationships.any (fun targetRel =>
          targetRel.targetCharacterId = sourceRel.targetCharacterId ∧
          targetRel.type = sourceRel.type)),
    chapterHistory :=
      (targetChar.chapterHistory ++
       sourceChar.chapterHistory.filter (fun sourceHist =>
         ¬ targetChar.chapterHistory.any (fun targetHist =>
           targetHist.chapter = sourceHist.chapter))).mergeSort
        (fun a b => a.chapter ≤ b.chapter),
    aliases :=
      jsDedup (targetChar.aliases ++ sourceChar.name :: sourceChar.aliases) }

/-- `CharacterService.mergeCharacters`: load both records, reject missing ids
and cross-book pairs (before any write), build the merged record from the
pre-rewrite snapshots, repair every same-book character's edges that pointed
at the source, persist the merged record under the target id, and delete the
source id. -/
def mergeCharacters (st : Store) (sourceCharacterId targetCharacterId : String) :
    MergeOutcome :=
  match getChar st sourceCharacterId, getChar st targetCharacterId with
  | none, _ => ⟨st, some .notFound⟩
  | some _, none => ⟨st, some .notFound⟩
  | some sourceChar, some targetChar =>
    if sourceChar.bookId ≠ targetChar.bookId then ⟨st, some .crossBook⟩
    else
      let mergedChar := buildMergedChar sourceChar targetChar
      let allCharacters := getCharactersForBook st sourceChar.bookId
      let st1 := mergePass st allCharacters sourceCharacterId targetCharacterId
      let st2 := putChar st1 mergedChar
      ⟨deleteChar st2 sourceCharacterId, none⟩

/-! ## Chapter observation processor (`processGeminiResponse` and helpers) -/

/-- JS truthiness of an optional string field (`undefined` and `''` are
falsy). -/
def truthy : Option String → Bool
  | none => false
  | some s => s ≠ ""

/-- `relevanceOrder = { 'Minor': 1, 'Supporting': 2, 'Major': 3 }`. -/
def relevanceOrder : Relevance → Nat
  | .minor => 1
  | .supporting => 2
  | .major => 3

/-- `CharacterExtractionService.updateExistingCharacter`: bump
`lastMentioned`/`mentionCount`, overwrite the descriptive fields that carry a
truthy non-`'Unknown'` value, upgrade `relevance`, and append a chapter
history entry when there is anything to note. -/
def updateExistingCharacter (existingCharacter : Character)
    (extractedData : ExtractedCharacterData) (chapterNumber : Nat) : Character :=
  let c0 := { existingCharacter with
    lastMentioned := chapterNumber,
    mentionCount := existingCharacter.mentionCount + 1 }
  let c1 := if truthy extractedData.occupation ∧
      extractedData.occupation ≠ some "Unknown" then
    { c0 with occupation := extractedData.occupation } else c0
  let c2 := if truthy extractedData.age ∧ extractedData.age ≠ some "Unknown" then
    { c1 with age := extractedData.age } else c1
  let c3 := if truthy extractedData.location ∧
      extractedData.location ≠ some "Unknown" then
    { c2 with location := extractedData.location } else c2
  let c4 := match extractedData.status with
    | some s => if s ≠ Status.unknown then { c3 with status := s } else c3
    | none => c3
  let c5 := match extractedData.relevance with
    | some r =>
      if relevanceOrder r > relevanceOrder c4.relevance then
        { c4 with relevance := r }
      else c4
    | none => c4
  let c6 := if truthy extractedData.briefDescription then
    { c5 with briefDescription := extractedData.briefDescription } else c5
  let updates :=
    (if truthy extractedData.occupation ∧
        extractedData.occupation ≠ some "Unknown" then
      ["Occupation: " ++ (extractedData.occupation.getD "")] else []) ++
    (if truthy extractedData.briefDescription then
      [extractedData.briefDescription.getD ""] else [])
  if updates.length > 0 then
    { c6 with chapterHistory :=
        c6.chapterHistory ++ [{ chapter := chapterNumber, updates := updates }] }
  else c6

/-- `CharacterExtractionService.createNewCharacter`.  `crypto.randomUUID()`
is modelled by an explicit fresh id handed in by the caller. -/
def createNewCharacter (bookId : String)
    (extractedData : ExtractedCharacterData) (chapterNumber : Nat)
    (freshId : String) : Character :=
  { id := freshId,
    bookId := bookId,
    name := extractedData.name,
    occupation := some (extractedData.occupation.getD "Unknown"),
    age := some (extractedData.age.getD "Unknown"),
    location := some (extractedData.location.getD "Unknown"),
    status := extractedData.status.getD .unknown,
    relevance := extractedData.relevance.getD .minor,
    relationships := [],
    firstAppearance := chapterNumber,
    lastMentioned := chapterNumber,
    briefDescription := extractedData.briefDescription,
    chapterHistory :=
      [ChapterHistory.mk chapterNumber
        ((extractedData.briefDescription.getD "First appearance") ::
         (if truthy extractedData.occupation ∧
             extractedData.occupation ≠ some "Unknown" then
           ["Occupation: " ++ (extractedData.occupation.getD "")] else []))],
    mentionCount := 1,
    aliases := [] }

/-- Position, in the processed batch, of the character a
`characterMap.get(key)` lookup returns: the map is built by one `forEach`
doing `set(char.name.toLowerCase(), char)`, so the last character with that
lowercased name wins.  Positions are stable because this pass never changes a
name. -/
def lastIdxWithName : List Character → String → Option Nat
  | [], _ => none
  | c :: cs, key =>
    match lastIdxWithName cs key with
    | some i => some (i + 1)
    | none => if lowerS c.name = key then some 0 else none

/-- The duplicate-suppressing `push` of `processRelationships`: append the
edge to the character at position `i` unless it already has an edge with the
same `(targetCharacterId, type)`. -/
def pushRelIfNew (chars : List Character) (i : Nat) (newRel : Relationship) :
    List Character :=
  match chars.get? i with
  | none => chars
  | some character =>
    if character.relationships.any (fun r =>
        r.targetCharacterId = newRel.targetCharacterId ∧ r.type = newRel.type)
    then chars
    else chars.set i
      { character with relationships := character.relationships ++ [newRel] }

/-- `CharacterExtractionService.processRelationships`: resolve each candidate
and each mentioned target by (lowercased) candidate name in the batch map,
silently dropping unresolved names, and append the edge with
`establishedInChapter = chapterNumber` unless a `(target, type)` duplicate
exists. -/
def processRelationships (characters : List Character)
    (extractedData : List ExtractedCharacterData) (chapterNumber : Nat) :
    List Character :=
  extractedData.foldl (fun chars extractedChar =>
    match lastIdxWithName characters (lowerS extractedChar.name) with
    | none => chars
    | some i =>
      extractedChar.relationships.foldl (fun chars2 rel =>
        match lastIdxWithName characters (lowerS rel.targetName) with
        | none => chars2
        | some ti =>
          match chars2.get? ti with
          | none => chars2
          | some targetCharacter =>
            pushRelIfNew chars2 i
              { targetCharacterId := targetCharacter.id, type := rel.type,
                description := rel.description,
                establishedInChapter := chapterNumber }) chars)
    characters

/-- `crypto.randomUUID()` modelled as a deterministic fresh-id supply. -/
def freshUUID (n : Nat) : String := "uuid-" ++ toString n

/-- JS `name.includes(' ')`. -/
def containsSpace (s : String) : Bool := s.data.contains ' '

/-- The per-candidate loop of `processGeminiResponse`: skip blank names;
re-fetch the book's characters from the table and try an exact then a fuzzy
match; possibly upgrade the matched character's stored name to the more
complete candidate name; update the match or create a fresh character.
Returns the batch in order together with the number of ids consumed.  Note
that the table `st` is only read — `updateExistingCharacter` and
`createNewCharacter` return records without persisting them. -/
def processCandidates (st : Store) (bookId : String) (chapterNumber : Nat)
    (cands : List ExtractedCharacterData) : List Character × Nat :=
  cands.foldl (fun acc extractedChar =>
    if trimL extractedChar.name.data = [] then acc
    else
      let allBookCharacters := getCharactersForBook st bookId
      match findCharacterByName st bookId extractedChar.name with
      | some existingCharacter =>
        (acc.1 ++ [updateExistingCharacter existingCharacter extractedChar
          chapterNumber], acc.2)
      | none =>
        match findSimilarCharacterNames bookId extractedChar.name
            allBookCharacters with
        | some fuzzyMatch =>
          let existingCharacter :=
            if extractedChar.name.length > fuzzyMatch.name.length ∨
                (containsSpace extractedChar.name ∧
                 ¬ containsSpace fuzzyMatch.name) then
              { fuzzyMatch with name := extractedChar.name }
            else fuzzyMatch
          (acc.1 ++ [updateExistingCharacter existingCharacter extractedChar
            chapterNumber], acc.2)
        | none =>
          (acc.1 ++ [createNewCharacter bookId extractedChar chapterNumber
            (freshUUID acc.2)], acc.2 + 1))
    ([], 0)

/-- `CharacterExtractionService.processGeminiResponse`.  The brace
extraction, `JSON.parse` and the `characters`-array shape check on the raw
response text are modelled by the `parseResult` argument: `none` stands for a
response in which they fail, in which case the `catch` block rethrows
`'Failed to parse character data from AI response'` and nothing has been
written. -/
def processGeminiResponse (st : Store) (bookId : String) (chapterNumber : Nat)
    (parseResult : Option (List ExtractedCharacterData)) :
    Except String (List Character) :=
  match parseResult with
  | none => .error "Failed to parse character data from AI response"
  | some cands =>
    let characters := (processCandidates st bookId chapterNumber cands).1
    .ok (processRelationships characters cands chapterNumber)

/-- `handleAnalyzeChapter` (ChapterAnalysis component), step 2 and 3: run the
extraction; on success persist the returned batch with
`characterService.saveCharacters`; on a thrown error surface it and leave the
table as it was. -/
def analyzeChapter (st : Store) (bookId : String) (chapterNumber : Nat)
    (parseResult : Option (List ExtractedCharacterData)) :
    Store × Option String :=
  match processGeminiResponse st bookId chapterNumber parseResult with
  | .error e => (st, some e)
  | .ok characters => (saveCharacters st bookId characters, none)

/-! ## Chapter-scoped view (`CharacterMap.prepareGraphData`,
`CharacterDetail`) -/

/-- `characters.filter(char => char.firstAppearance <= currentChapter)`. -/
def visibleCharacters (characters : List Character) (currentChapter : Nat) :
    List Character :=
  characters.filter (fun char => char.firstAppearance ≤ currentChapter)

/-- `character.relationships.filter(rel => rel.establishedInChapter <=
currentChapter)` (CharacterDetail). -/
def visibleRelationships (character : Character) (currentChapter : Nat) :
    List Relationship :=
  character.relationships.filter
    (fun rel => rel.establishedInChapter ≤ currentChapter)

/-- `character.chapterHistory.filter(hist => hist.chapter <= currentChapter)`
(CharacterDetail). -/
def visibleHistory (character : Character) (currentChapter : Nat) :
    List ChapterHistory :=
  character.chapterHistory.filter (fun hist => hist.chapter ≤ currentChapter)

/-- The links of `prepareGraphData`: for every visible character, every edge
established up to the current chapter whose endpoints are both in the node
map, tagged with the owning character's id. -/
def graphLinks (characters : List Character) (currentChapter : Nat) :
    List (String × Relationship) :=
  (visibleCharacters characters currentChapter).foldl (fun links character =>
    links ++ (character.relationships.filter (fun relationship =>
      relationship.establishedInChapter ≤ currentChapter &&
      (visibleCharacters characters currentChapter).any
        (fun n => n.id = relationship.targetCharacterId) &&
      (visibleCharacters characters currentChapter).any
        (fun n => n.id = character.id))).map
      (fun relationship => (character.id, relationship))) []

/-! ## Store lemmas -/

theorem getChar_some_id {st : Store} {i : String} {c : Character}
    (h : getChar st i = some c) : c.id = i := by
  have h2 := List.find?_some h
  exact of_decide_eq_true h2

theorem find?_map_replace_ne {st : Store} {c : Character} {i : String}
    (hne : i ≠ c.id) :
    (st.map (fun d => if d.id = c.id then c else d)).find?
        (fun x => decide (x.id = i)) =
      st.find? (fun x => decide (x.id = i)) := by
  induction st with
  | nil => rfl
  | cons d ds ih =>
    by_cases hd : d.id = c.id
    · have h1 : decide (c.id = i) = false := by
        simp only [decide_eq_false_iff_not]
        exact fun h => hne h.symm
      have h2 : decide (d.id = i) = false := by
        simp only [decide_eq_false_iff_not, hd]
        exact fun h => hne h.symm
      simp only [List.map_cons, if_pos hd, List.find?_cons, h1, h2]
      exact ih
    · simp only [List.map_cons, if_neg hd, List.find?_cons]
      cases hdi : decide (d.id = i) with
      | true => rfl
      | false => exact ih

theorem find?_map_replace_eq {st : Store} {c : Character}
    (h : st.any (fun d => decide (d.id = c.id)) = true) :
    (st.map (fun d => if d.id = c.id then c else d)).find?
        (fun x => decide (x.id = c.id)) = some c := by
  induction st with
  | nil => simp at h
  | cons d ds ih =>
    by_cases hd : d.id = c.id
    · simp [List.find?_cons, if_pos hd]
    · simp only [List.any_cons, Bool.or_eq_true, decide_eq_true_eq] at h
      rcases h with h | h
      · exact absurd h hd
      · simp only [List.map_cons, if_neg hd, List.find?_cons]
        have h2 : decide (d.id = c.id) = false := by
          simp only [decide_eq_false_iff_not]; exact hd
        rw [h2]
        exact ih (by simpa using h)

theorem getChar_putChar (st : Store) (c : Character) (i : String) :
    getChar (putChar st c) i = if i = c.id then some c else getChar st i := by
  unfold getChar putChar
  by_cases hany : st.any (fun d => decide (d.id = c.id)) = true
  · rw [if_pos hany]
    by_cases hi : i = c.id
    · subst hi
      rw [if_pos rfl]
      exact find?_map_replace_eq hany
    · rw [if_neg hi]
      exact find?_map_replace_ne hi
  · rw [if_neg hany]
    rw [List.find?_append]
    by_cases hi : i = c.id
    · subst hi
      have hnone : st.find? (fun x => decide (x.id = c.id)) = none := by
        rw [List.find?_eq_none]
        intro a ha
        simp only [decide_eq_true_eq]
        intro hac
        exact hany (List.any_eq_true.mpr ⟨a, ha, by simpa using hac⟩)
      rw [hnone, if_pos rfl]
      simp [List.find?_cons]
    · rw [if_neg hi]
      have h1 : List.find? (fun x => decide (x.id = i)) [c] = none := by
        have hci : decide (c.id = i) = false := by
          simp only [decide_eq_false_iff_not]
          exact fun hcc => hi hcc.symm
        simp [List.find?_cons, hci]
      rw [h1]
      cases st.find? (fun x => decide (x.id = i)) <;> rfl

theorem find?_filter_of_imp {α} {p q : α → Bool} (l : List α)
    (h : ∀ a, p a = true → q a = true) :
    (l.filter q).find? p = l.find? p := by
  induction l with
  | nil => rfl
  | cons d ds ih =>
    by_cases hq : q d = true
    · rw [List.filter_cons_of_pos hq]
      simp only [List.find?_cons]
      cases hp : p d with
      | true => rfl
      | false => exact ih
    · rw [List.filter_cons_of_neg hq]
      have hp : p d = false := by
        cases hpd : p d with
        | true => exact absurd (h d hpd) hq
        | false => rfl
      simp only [List.find?_cons, hp]
      exact ih

theorem getChar_deleteChar (st : Store) (j i : String) :
    getChar (deleteChar st j) i = if i = j then none else getChar st i := by
  unfold getChar deleteChar
  by_cases hij : i = j
  · subst hij
    rw [if_pos rfl, List.find?_eq_none]
    intro a ha
    rw [List.mem_filter] at ha
    simpa using ha.2
  · rw [if_neg hij]
    apply find?_filter_of_imp
    intro a hp
    have : a.id = i := of_decide_eq_true hp
    simp [this, hij]
theorem find?_filter_of_nodup {st : Store} (p : Character → Bool) (i : String)
    (hN : (st.map (fun c => c.id)).Nodup) :
    (st.filter p).find? (fun c => decide (c.id = i)) =
      match st.find? (fun c => decide (c.id = i)) with
      | some c => if p c = true then some c else none
      | none => none := by
  induction st with
  | nil => rfl
  | cons d ds ih =>
    simp only [List.map_cons, List.nodup_cons] at hN
    by_cases hd : d.id = i
    · have hdt : decide (d.id = i) = true := by simp [hd]
      by_cases hp : p d = true
      · simp only [List.filter_cons_of_pos hp, List.find?_cons, hdt, if_pos hp]
      · simp only [List.filter_cons_of_neg (by simpa using hp),
          List.find?_cons, hdt, if_neg hp]
        rw [List.find?_eq_none]
        intro a ha
        rw [List.mem_filter] at ha
        simp only [decide_eq_true_eq]
        intro hai
        apply hN.1
        rw [hd, ← hai]
        exact List.mem_map_of_mem (fun c => c.id) ha.1
    · have hdf : decide (d.id = i) = false := by simp [hd]
      by_cases hp : p d = true
      · simp only [List.filter_cons_of_pos hp, List.find?_cons, hdf]
        exact ih hN.2
      · simp only [List.filter_cons_of_neg (by simpa using hp),
          List.find?_cons, hdf]
        exact ih hN.2

theorem rewriteRels_id {src tgt : String} {c : Character}
    (h : ∀ rel ∈ c.relationships, rel.targetCharacterId ≠ src) :
    rewriteRels src tgt c = c := by
  unfold rewriteRels
  have hmap : ∀ rels : List Relationship,
      (∀ rel ∈ rels, rel.targetCharacterId ≠ src) →
      rels.map (fun rel =>
        if rel.targetCharacterId = src then
          { rel with targetCharacterId := tgt } else rel) = rels := by
    intro rels hrels
    induction rels with
    | nil => rfl
    | cons r rs ihr =>
      rw [List.map_cons, if_neg (hrels r (List.mem_cons_self r rs)),
        ihr (fun x hx => hrels x (List.mem_cons_of_mem r hx))]
  rw [hmap c.relationships h]

/-- `rewriteRels` keeps the id. -/
theorem rewriteRels_id_field (src tgt : String) (c : Character) :
    (rewriteRels src tgt c).id = c.id := rfl

theorem mergePass_unfold_cons (st : Store) (c : Character)
    (cs : List Character) (src tgt : String) :
    mergePass st (c :: cs) src tgt =
      mergePass (if c.relationships.any
          (fun rel => decide (rel.targetCharacterId = src)) = true then
        putChar st (rewriteRels src tgt c) else st) cs src tgt := by
  unfold mergePass
  simp only [List.foldl_cons]

theorem mergePass_getChar_notmem {chars : List Character} {i : String}
    (hAll : ∀ c ∈ chars, c.id ≠ i) (st : Store) (src tgt : String) :
    getChar (mergePass st chars src tgt) i = getChar st i := by
  induction chars generalizing st with
  | nil => rfl
  | cons c cs ih =>
    rw [mergePass_unfold_cons]
    rw [ih (fun d hd => hAll d (List.mem_cons_of_mem c hd))]
    by_cases hu : c.relationships.any
        (fun rel => decide (rel.targetCharacterId = src)) = true
    · rw [if_pos hu, getChar_putChar, if_neg]
      intro habs
      exact hAll c (List.mem_cons_self c cs)
        (by rw [rewriteRels_id_field] at habs; exact habs.symm)
    · rw [if_neg hu]

theorem mergePass_getChar_mem {chars : List Character} {c : Character}
    {i : String} (hC : (chars.map (fun d => d.id)).Nodup)
    (hmem : c ∈ chars) (hcid : c.id = i) (st : Store) (src tgt : String) :
    getChar (mergePass st chars src tgt) i =
      if c.relationships.any
          (fun rel => decide (rel.targetCharacterId = src)) = true then
        some (rewriteRels src tgt c)
      else getChar st i := by
  induction chars generalizing st with
  | nil => exact absurd hmem (List.not_mem_nil c)
  | cons d ds ih =>
    simp only [List.map_cons, List.nodup_cons] at hC
    rw [mergePass_unfold_cons]
    rcases List.mem_cons.mp hmem with rfl | hmem2
    · have hAll : ∀ e ∈ ds, e.id ≠ i := by
        intro e he habs
        apply hC.1
        rw [hcid, ← habs]
        exact List.mem_map_of_mem (fun x => x.id) he
      rw [mergePass_getChar_notmem hAll]
      by_cases hu : c.relationships.any
          (fun rel => decide (rel.targetCharacterId = src)) = true
      · rw [if_pos hu, if_pos hu, getChar_putChar, if_pos]
        rw [rewriteRels_id_field, hcid]
      · rw [if_neg hu, if_neg hu]
    · have hdi : d.id ≠ i := by
        intro habs
        apply hC.1
        rw [habs, ← hcid]
        exact List.mem_map_of_mem (fun x => x.id) hmem2
      have hst : getChar (if d.relationships.any
          (fun rel => decide (rel.targetCharacterId = src)) = true then
            putChar st (rewriteRels src tgt d) else st) i = getChar st i := by
        by_cases hu : d.relationships.any
            (fun rel => decide (rel.targetCharacterId = src)) = true
        · rw [if_pos hu, getChar_putChar, if_neg]
          intro habs
          exact hdi (by rw [rewriteRels_id_field] at habs; exact habs.symm)
        · rw [if_neg hu]
      rw [ih hC.2 hmem2, hst]

theorem mem_jsDedupAux (x : String) (l seen : List String) :
    x ∈ jsDedupAux l seen ↔ x ∈ l ∧ x ∉ seen := by
  induction l generalizing seen with
  | nil => simp [jsDedupAux]
  | cons y ys ih =>
    unfold jsDedupAux
    by_cases hy : y ∈ seen
    · rw [if_pos hy, ih]
      constructor
      · rintro ⟨h1, h2⟩
        exact ⟨List.mem_cons_of_mem y h1, h2⟩
      · rintro ⟨h1, h2⟩
        rcases List.mem_cons.mp h1 with h | h
        · exact absurd (h ▸ hy) h2
        · exact ⟨h, h2⟩
    · rw [if_neg hy]
      simp only [List.mem_cons, ih, List.mem_cons, not_or]
      constructor
      · rintro (rfl | ⟨h1, h2, h3⟩)
        · exact ⟨Or.inl rfl, hy⟩
        · exact ⟨Or.inr h1, h3⟩
      · rintro ⟨rfl | h1, h2⟩
        · exact Or.inl rfl
        · by_cases hxy : x = y
          · exact Or.inl hxy
          · exact Or.inr ⟨h1, hxy, h2⟩

theorem mem_jsDedup (x : String) (l : List String) :
    x ∈ jsDedup l ↔ x ∈ l := by
  unfold jsDedup
  rw [mem_jsDedupAux]
  simp

theorem mergeCharacters_ok {st : Store} {A B : String} {a b : Character}
    (hA : getChar st A = some a) (hB : getChar st B = some b)
    (hbook : a.bookId = b.bookId) :
    mergeCharacters st A B =
      ⟨deleteChar
        (putChar (mergePass st (getCharactersForBook st a.bookId) A B)
          (buildMergedChar a b)) A, none⟩ := by
  unfold mergeCharacters
  rw [hA, hB]
  dsimp only
  rw [if_neg (fun hne => hne hbook)]

theorem store_ids_nodup_filter {st : Store} (p : Character → Bool)
    (hN : (st.map (fun c => c.id)).Nodup) :
    ((st.filter p).map (fun c => c.id)).Nodup :=
  hN.sublist (List.Sublist.map (fun c => c.id) (List.filter_sublist st))

/-- C1.  For distinct characters `a` (id `A`, source) and `b` (id `B`,
target) of the same book, a merge succeeds and afterwards: no character with
id `A` exists; the record at `B` has the summed `mentionCount`, the minimum
`firstAppearance`, and `a.name` among its aliases; and every other character
of the book has exactly its old relationships with edges that pointed at `A`
repointed at `B` (`rewriteRels`). -/
theorem merge_spec_C1 (st : Store) (A B : String) (a b : Character)
    (hN : (st.map (fun c => c.id)).Nodup)
    (hA : getChar st A = some a) (hB : getChar st B = some b)
    (hAB : A ≠ B) (hbook : a.bookId = b.bookId) :
    (mergeCharacters st A B).error = none ∧
    getChar (mergeCharacters st A B).store A = none ∧
    (∃ b2, getChar (mergeCharacters st A B).store B = some b2 ∧
      b2.mentionCount = a.mentionCount + b.mentionCount ∧
      b2.firstAppearance = min a.firstAppearance b.firstAppearance ∧
      a.name ∈ b2.aliases) ∧
    (∀ i c, i ≠ A → i ≠ B → getChar st i = some c → c.bookId = a.bookId →
      getChar (mergeCharacters st A B).store i = some (rewriteRels A B c)) := by
  rw [mergeCharacters_ok hA hB hbook]
  have hbid : (buildMergedChar a b).id = B := by
    have h0 : b.id = B := getChar_some_id hB
    exact h0
  refine ⟨rfl, ?_, ?_, ?_⟩
  · rw [getChar_deleteChar, if_pos rfl]
  · refine ⟨buildMergedChar a b, ?_, ?_, ?_, ?_⟩
    · rw [getChar_deleteChar, if_neg (fun h => hAB h.symm),
        getChar_putChar, if_pos hbid.symm]
    · show b.mentionCount + a.mentionCount = a.mentionCount + b.mentionCount
      exact Nat.add_comm b.mentionCount a.mentionCount
    · show min b.firstAppearance a.firstAppearance =
        min a.firstAppearance b.firstAppearance
      exact Nat.min_comm b.firstAppearance a.firstAppearance
    · show a.name ∈ jsDedup (b.aliases ++ a.name :: a.aliases)
      rw [mem_jsDedup]
      exact List.mem_append_right b.aliases (List.mem_cons_self a.name a.aliases)
  · intro i c hiA hiB hgc hcb
    rw [getChar_deleteChar, if_neg hiA, getChar_putChar,
      if_neg (fun h => hiB (h.trans hbid))]
    have hcmem : c ∈ getCharactersForBook st a.bookId := by
      unfold getCharactersForBook
      exact List.mem_filter.mpr
        ⟨List.mem_of_find?_eq_some hgc, by simp [hcb]⟩
    have hcid : c.id = i := getChar_some_id hgc
    have hCN : ((getCharactersForBook st a.bookId).map
        (fun d => d.id)).Nodup :=
      store_ids_nodup_filter _ hN
    rw [mergePass_getChar_mem hCN hcmem hcid]
    by_cases hu : c.relationships.any
        (fun rel => decide (rel.targetCharacterId = A)) = true
    · rw [if_pos hu]
    · rw [if_neg hu, hgc, rewriteRels_id]
      intro rel hrel habs
      apply hu
      rw [List.any_eq_true]
      exact ⟨rel, hrel, by simpa using habs⟩

/-- C6.  A merge whose operands have different `bookId`s throws
`'Cannot merge characters from different books'` (the spec's
`CrossBookMergeError`) before any write: the table is returned exactly as it
was. -/
theorem merge_crossbook_C6 (st : Store) (A B : String) (a b : Character)
    (hA : getChar st A = some a) (hB : getChar st B = some b)
    (hbook : a.bookId ≠ b.bookId) :
    mergeCharacters st A B = ⟨st, some MergeErr.crossBook⟩ := by
  unfold mergeCharacters
  rw [hA, hB]
  dsimp only
  rw [if_pos hbook]

/-- C10.  If the target `b` itself holds an edge `r` pointing at the source
id `A`, the merge still succeeds, `A` is deleted, and the persisted target
record still contains `r` unchanged (a dangling reference): the merged
record is built from the pre-rewrite snapshot of the target and persisted
after the rewrite pass. -/
theorem merge_dangling_C10 (st : Store) (A B : String) (a b : Character)
    (r : Relationship) (hA : getChar st A = some a)
    (hB : getChar st B = some b) (hAB : A ≠ B)
    (hbook : a.bookId = b.bookId) (hr : r ∈ b.relationships)
    (hrA : r.targetCharacterId = A) :
    (mergeCharacters st A B).error = none ∧
    getChar (mergeCharacters st A B).store A = none ∧
    (∃ b2, getChar (mergeCharacters st A B).store B = some b2 ∧
      r ∈ b2.relationships ∧ r.targetCharacterId = A) := by
  rw [mergeCharacters_ok hA hB hbook]
  have hbid : (buildMergedChar a b).id = B := by
    have h0 : b.id = B := getChar_some_id hB
    exact h0
  refine ⟨rfl, ?_, buildMergedChar a b, ?_, ?_, hrA⟩
  · rw [getChar_deleteChar, if_pos rfl]
  · rw [getChar_deleteChar, if_neg (fun h => hAB h.symm),
      getChar_putChar, if_pos hbid.symm]
  · show r ∈ b.relationships ++ _
    exact List.mem_append_left _ hr

/-! ## Concrete fixtures for witnesses and counterexamples -/

/-- An edge pointing at character id `"a"` of type `family`. -/
def relToAfam : Relationship :=
  { targetCharacterId := "a", type := RelType.family,
    description := "father of", establishedInChapter := 2 }

/-- An edge pointing at character id `"a"` of type `friendship`. -/
def relToAfr : Relationship :=
  { targetCharacterId := "a", type := RelType.friendship,
    description := "friends with", establishedInChapter := 2 }

/-- An edge pointing at character id `"b"` of type `friendship`. -/
def relToBfr : Relationship :=
  { targetCharacterId := "b", type := RelType.friendship,
    description := "allied with", establishedInChapter := 3 }

/-- Fixture character with id `"a"` (merge source). -/
def charA : Character :=
  { id := "a", bookId := "bk", name := "Bill", occupation := none,
    age := none, location := none, status := Status.unknown,
    relevance := Relevance.minor, relationships := [],
    firstAppearance := 1, lastMentioned := 1, briefDescription := none,
    chapterHistory := [], mentionCount := 2, aliases := ["Billy"] }

/-- Fixture character with id `"b"` (merge target). -/
def charB : Character :=
  { id := "b", bookId := "bk", name := "William Parker", occupation := none,
    age := none, location := none, status := Status.alive,
    relevance := Relevance.major, relationships := [],
    firstAppearance := 3, lastMentioned := 4, briefDescription := none,
    chapterHistory := [], mentionCount := 5, aliases := [] }

/-- Fixture character with id `"c"` holding one edge to `"a"`. -/
def charC : Character :=
  { id := "c", bookId := "bk", name := "Jane", occupation := none,
    age := none, location := none, status := Status.unknown,
    relevance := Relevance.supporting, relationships := [relToAfam],
    firstAppearance := 2, lastMentioned := 4, briefDescription := none,
    chapterHistory := [], mentionCount := 3, aliases := [] }

/-- Witness for C1: on the concrete table `[charA, charB, charC]`, merging
`"a"` into `"b"` reports no error and removes the record at `"a"`. -/
theorem merge_spec_C1_witness :
    (mergeCharacters [charA, charB, charC] "a" "b").error = none ∧
    getChar (mergeCharacters [charA, charB, charC] "a" "b").store "a" =
      none := by
  have h := merge_spec_C1 [charA, charB, charC] "a" "b" charA charB
    (by decide) (by decide) (by decide) (by decide) (by decide)
  exact ⟨h.1, h.2.1⟩

/-- Witness for C6: a concrete cross-book merge request is rejected with the
table unchanged. -/
theorem merge_crossbook_C6_witness :
    mergeCharacters [charA, { charB with bookId := "other" }] "a" "b" =
      ⟨[charA, { charB with bookId := "other" }],
        some MergeErr.crossBook⟩ :=
  merge_crossbook_C6 _ "a" "b" charA { charB with bookId := "other" }
    (by decide) (by decide) (by decide)

/-- Witness for C10: with the target `"b"` holding an edge to `"a"`, the
merged record persisted at `"b"` still contains that edge while `"a"` is
gone. -/
theorem merge_dangling_C10_witness :
    (mergeCharacters [charA, { charB with relationships := [relToAfam] }]
      "a" "b").error = none ∧
    getChar (mergeCharacters [charA,
      { charB with relationships := [relToAfam] }] "a" "b").store "a" =
      none ∧
    (∃ b2, getChar (mergeCharacters [charA,
      { charB with relationships := [relToAfam] }] "a" "b").store "b" =
      some b2 ∧ relToAfam ∈ b2.relationships ∧
      relToAfam.targetCharacterId = "a") :=
  merge_dangling_C10 [charA, { charB with relationships := [relToAfam] }]
    "a" "b" charA { charB with relationships := [relToAfam] } relToAfam
    (by decide) (by decide) (by decide) (by decide) (by decide) (by decide)

/-- C3 (code bug).  The source has no self-merge guard: merging the one
character of the table into itself throws no error (the spec's
`SelfMergeError` does not exist in the code) and, far from leaving the table
unchanged, ends by deleting the source id — which is the character itself,
so the record is destroyed. -/
theorem merge_self_C3_bug :
    mergeCharacters [charA] "a" "a" = ⟨[], none⟩ ∧ ([] : Store) ≠ [charA] := by
  constructor
  · decide
  · decide

/-! ## The `(targetCharacterId, type)` duplicate-suppression invariant -/

/-- Two edges do not share both target id and type. -/
abbrev relKeyNe (r1 r2 : Relationship) : Prop :=
  ¬ (r1.targetCharacterId = r2.targetCharacterId ∧ r1.type = r2.type)

/-- No two relationship edges held by a character share both
`targetCharacterId` and `type`. -/
abbrev noDupRels (c : Character) : Prop :=
  c.relationships.Pairwise relKeyNe

theorem pushRelIfNew_inv {chars : List Character} {i : Nat}
    {newRel : Relationship} (h : ∀ c ∈ chars, noDupRels c) :
    ∀ c ∈ pushRelIfNew chars i newRel, noDupRels c := by
  intro c hc
  unfold pushRelIfNew at hc
  rcases hget : chars.get? i with _ | character
  · simp only [hget] at hc
    exact h c hc
  · simp only [hget] at hc
    by_cases hdup : character.relationships.any (fun r =>
        decide (r.targetCharacterId = newRel.targetCharacterId ∧
          r.type = newRel.type)) = true
    · rw [if_pos hdup] at hc
      exact h c hc
    · rw [if_neg hdup] at hc
      rcases List.mem_or_eq_of_mem_set hc with hmem | rfl
      · exact h c hmem
      · have hchar : character ∈ chars := List.get?_mem hget
        have hnd := h character hchar
        show List.Pairwise relKeyNe (character.relationships ++ [newRel])
        rw [List.pairwise_append]
        refine ⟨hnd, List.pairwise_singleton _ _, ?_⟩
        intro x hx y hy
        rw [List.mem_singleton] at hy
        subst hy
        intro habs
        apply hdup
        rw [List.any_eq_true]
        exact ⟨x, hx, by simpa using habs⟩

theorem foldl_preserves {α β : Type} (P : β → Prop) (f : β → α → β)
    (hf : ∀ b a, P b → P (f b a)) :
    ∀ (l : List α) (b : β), P b → P (l.foldl f b) := by
  intro l
  induction l with
  | nil => exact fun b hb => hb
  | cons x xs ih => exact fun b hb => ih (f b x) (hf b x hb)

theorem processRelationships_inv (characters : List Character)
    (extractedData : List ExtractedCharacterData) (chapterNumber : Nat)
    (h : ∀ c ∈ characters, noDupRels c) :
    ∀ c ∈ processRelationships characters extractedData chapterNumber,
      noDupRels c := by
  unfold processRelationships
  refine foldl_preserves (fun chars => ∀ c ∈ chars, noDupRels c) _ ?_
    extractedData characters h
  intro chars ec hchars
  rcases h1 : lastIdxWithName characters (lowerS ec.name) with _ | i
  · simpa only [h1] using hchars
  · simp only [h1]
    refine foldl_preserves (fun chars => ∀ c ∈ chars, noDupRels c) _ ?_
      ec.relationships chars hchars
    intro chars2 rel hchars2
    rcases h2 : lastIdxWithName characters (lowerS rel.targetName) with _ | ti
    · simpa only [h2] using hchars2
    · simp only [h2]
      rcases h3 : chars2.get? ti with _ | targetCharacter
      · simpa only [h3] using hchars2
      · simp only [h3]
        exact pushRelIfNew_inv hchars2

theorem buildMergedChar_noDupRels {a b : Character} (ha : noDupRels a)
    (hb : noDupRels b) : noDupRels (buildMergedChar a b) := by
  show List.Pairwise relKeyNe (b.relationships ++ a.relationships.filter _)
  rw [List.pairwise_append]
  refine ⟨hb, List.Pairwise.sublist (List.filter_sublist _) ha, ?_⟩
  intro x hx y hy
  rw [List.mem_filter] at hy
  intro habs
  have hy2 := of_decide_eq_true hy.2
  apply hy2
  rw [List.any_eq_true]
  exact ⟨x, hx, by simpa using habs⟩

/-- C4 (amended).  The duplicate-suppression invariant — no two edges of one
character share `(targetCharacterId, type)` — is preserved by the
chapter-observation relationship pass and by the merged record's own edge
set, but NOT by the merge as a whole: the reference-rewrite pass can create
duplicates on a bystander character (see the counterexample). -/
theorem relationship_key_invariant_C4 :
    (∀ (characters : List Character)
      (extractedData : List ExtractedCharacterData) (chapterNumber : Nat),
      (∀ c ∈ characters, noDupRels c) →
      ∀ c ∈ processRelationships characters extractedData chapterNumber,
        noDupRels c) ∧
    (∀ a b : Character, noDupRels a → noDupRels b →
      noDupRels (buildMergedChar a b)) :=
  ⟨processRelationships_inv, fun _ _ ha hb => buildMergedChar_noDupRels ha hb⟩

/-- Witness for C4: the merged record of the concrete fixtures keeps the
invariant. -/
theorem relationship_key_invariant_C4_witness :
    noDupRels (buildMergedChar charA charB) :=
  relationship_key_invariant_C4.2 charA charB (by decide) (by decide)

/-- Counterexample for C4 as originally claimed: on a table satisfying the
invariant in which `"c"` holds same-type edges to both `"a"` and `"b"`,
merging `"a"` into `"b"` succeeds but leaves `"c"` with two identical
`("b", friendship)` edges. -/
theorem relationship_key_invariant_C4_counterexample :
    (∀ c ∈ ([charA, charB,
      { charC with relationships := [relToAfr, relToBfr] }] : Store),
      noDupRels c) ∧
    (mergeCharacters [charA, charB,
      { charC with relationships := [relToAfr, relToBfr] }] "a" "b").error =
      none ∧
    ¬ (∀ c ∈ (mergeCharacters [charA, charB,
      { charC with relationships := [relToAfr, relToBfr] }] "a" "b").store,
      noDupRels c) := by
  refine ⟨by decide, by decide, by decide⟩

/-! ## Batch visibility, failure atomicity and the chapter-scoped view -/

/-- A minimal candidate observation named `"Alice"`. -/
def candAlice : ExtractedCharacterData :=
  { name := "Alice", occupation := none, age := none, location := none,
    status := none, relevance := none, briefDescription := none,
    relationships := [] }

/-- C2 (code bug).  The per-candidate loop re-fetches the book's characters
from the table, but neither `createNewCharacter` nor
`updateExistingCharacter` persists anything — the batch is saved only after
all candidates are processed.  So a character created for an earlier
candidate is NOT visible to a later candidate's resolution: processing the
batch `["Alice", "Alice"]` against an empty table creates two distinct
records with the same name (each a fresh creation with `mentionCount = 1`),
and both are persisted. -/
theorem midbatch_visibility_C2_bug :
    (processCandidates [] "bk" 1 [candAlice, candAlice]).1.map
      (fun c => (c.id, c.name, c.mentionCount)) =
      [("uuid-0", "Alice", 1), ("uuid-1", "Alice", 1)] ∧
    (analyzeChapter [] "bk" 1 (some [candAlice, candAlice])).1.map
      (fun c => c.name) = ["Alice", "Alice"] := by
  refine ⟨by decide, by decide⟩

/-- C7.  If the AI response cannot be parsed as the expected structure, the
chapter run surfaces `'Failed to parse character data from AI response'` and
the character table is exactly what it was: `saveCharacters` is only reached
on success, and the processing itself never writes. -/
theorem malformed_atomic_C7 (st : Store) (bookId : String)
    (chapterNumber : Nat) :
    analyzeChapter st bookId chapterNumber none =
      (st, some "Failed to parse character data from AI response") := rfl

theorem visibleCharacters_mono {characters : List Character} {n m : Nat}
    (h : n ≤ m) {c : Character} (hc : c ∈ visibleCharacters characters n) :
    c ∈ visibleCharacters characters m := by
  unfold visibleCharacters at hc ⊢
  rw [List.mem_filter] at hc ⊢
  refine ⟨hc.1, ?_⟩
  have h2 : c.firstAppearance ≤ n := of_decide_eq_true hc.2
  exact decide_eq_true (Nat.le_trans h2 h)

theorem foldl_append_bind {α β : Type} (g : α → List β) (l : List α)
    (init : List β) :
    l.foldl (fun acc x => acc ++ g x) init = init ++ l.flatMap g := by
  induction l generalizing init with
  | nil => simp
  | cons x xs ih => simp [ih, List.flatMap_cons, List.append_assoc]

theorem graphLinks_mono {characters : List Character} {n m : Nat} (h : n ≤ m)
    {l : String × Relationship} (hl : l ∈ graphLinks characters n) :
    l ∈ graphLinks characters m := by
  unfold graphLinks at hl ⊢
  rw [foldl_append_bind, List.nil_append, List.mem_flatMap] at hl ⊢
  obtain ⟨character, hchar, hl2⟩ := hl
  refine ⟨character, visibleCharacters_mono h hchar, ?_⟩
  rw [List.mem_map] at hl2 ⊢
  obtain ⟨r, hr, rfl⟩ := hl2
  rw [List.mem_filter] at hr
  refine ⟨r, List.mem_filter.mpr ⟨hr.1, ?_⟩, rfl⟩
  have hconj := hr.2
  rw [Bool.and_eq_true, Bool.and_eq_true] at hconj
  obtain ⟨⟨hest, hany1⟩, hany2⟩ := hconj
  rw [Bool.and_eq_true, Bool.and_eq_true]
  have hest2 : r.establishedInChapter ≤ n := of_decide_eq_true hest
  refine ⟨⟨decide_eq_true (Nat.le_trans hest2 h), ?_⟩, ?_⟩
  · rw [List.any_eq_true] at hany1 ⊢
    obtain ⟨x, hx, hpx⟩ := hany1
    exact ⟨x, visibleCharacters_mono h hx, hpx⟩
  · rw [List.any_eq_true] at hany2 ⊢
    obtain ⟨x, hx, hpx⟩ := hany2
    exact ⟨x, visibleCharacters_mono h hx, hpx⟩

/-- C8.  The chapter-scoped view is a monotone filter: no character with
`firstAppearance > n` is ever visible at cursor `n`, and raising the cursor
from `n` to `m ≥ n` can only add — never remove — visible characters,
relationship edges, history entries and graph links. -/
theorem chapter_view_monotone_C8 (st : Store) (bookId : String)
    (characters : List Character) (character : Character) (n m : Nat)
    (h : n ≤ m) :
    (∀ c ∈ getCharactersUpToChapter st bookId n, ¬ n < c.firstAppearance) ∧
    (∀ c ∈ getCharactersUpToChapter st bookId n,
      c ∈ getCharactersUpToChapter st bookId m) ∧
    (∀ c ∈ visibleCharacters characters n, ¬ n < c.firstAppearance) ∧
    (∀ c ∈ visibleCharacters characters n, c ∈ visibleCharacters characters m) ∧
    (∀ r ∈ visibleRelationships character n,
      r ∈ visibleRelationships character m) ∧
    (∀ e ∈ visibleHistory character n, e ∈ visibleHistory character m) ∧
    (∀ l ∈ graphLinks characters n, l ∈ graphLinks characters m) := by
  refine ⟨?_, ?_, ?_, ?_, ?_, ?_, ?_⟩
  · intro c hc
    unfold getCharactersUpToChapter at hc
    rw [List.mem_filter] at hc
    have h2 : c.firstAppearance ≤ n := of_decide_eq_true hc.2
    omega
  · intro c hc
    unfold getCharactersUpToChapter at hc ⊢
    rw [List.mem_filter] at hc ⊢
    refine ⟨hc.1, ?_⟩
    have h2 : c.firstAppearance ≤ n := of_decide_eq_true hc.2
    exact decide_eq_true (Nat.le_trans h2 h)
  · intro c hc
    unfold visibleCharacters at hc
    rw [List.mem_filter] at hc
    have h2 : c.firstAppearance ≤ n := of_decide_eq_true hc.2
    omega
  · exact fun c hc => visibleCharacters_mono h hc
  · intro r hr
    unfold visibleRelationships at hr ⊢
    rw [List.mem_filter] at hr ⊢
    refine ⟨hr.1, ?_⟩
    have h2 : r.establishedInChapter ≤ n := of_decide_eq_true hr.2
    exact decide_eq_true (Nat.le_trans h2 h)
  · intro e he
    unfold visibleHistory at he ⊢
    rw [List.mem_filter] at he ⊢
    refine ⟨he.1, ?_⟩
    have h2 : e.chapter ≤ n := of_decide_eq_true he.2
    exact decide_eq_true (Nat.le_trans h2 h)
  · exact fun l hl => graphLinks_mono h hl

/-- Witness for C8: a character visible at cursor 1 stays visible at
cursor 2. -/
theorem chapter_view_monotone_C8_witness :
    charA ∈ getCharactersUpToChapter [charA, charB] "bk" 2 :=
  (chapter_view_monotone_C8 [charA, charB] "bk" [charA] charA 1 2
    (by decide)).2.1 charA (by decide)

/-! ## Resolver on "Jane Doe" vs "John Doe" (C5) -/

/-- Fixture: an existing character named "John Doe". -/
def johnDoe : Character :=
  { id := "jd", bookId := "bk", name := "John Doe", occupation := none,
    age := none, location := none, status := Status.alive,
    relevance := Relevance.major, relationships := [],
    firstAppearance := 1, lastMentioned := 1, briefDescription := none,
    chapterHistory := [], mentionCount := 1, aliases := [] }

/-- Counterexample for C5 as originally claimed: resolving "Jane Doe"
against `[John Doe]` does NOT return none — the exact lookup misses, but the
fuzzy pass matches. -/
theorem resolver_jane_doe_C5_counterexample :
    findCharacterByName [johnDoe] "bk" "Jane Doe" = none ∧
    ¬ findSimilarCharacterNames "bk" "Jane Doe" [johnDoe] = none := by
  refine ⟨by decide, by decide⟩

/-- C5 (amended).  `resolve("Jane Doe", [{name:"John Doe"}])` returns the
John Doe character: the surname+initial rule fires, because the last tokens
are both `"doe"` (length 3 > 2) and the first tokens `"jane"`/`"john"` share
the initial `'j'` — a first-token mismatch does not block that rule. -/
theorem resolver_jane_doe_C5 :
    findSimilarCharacterNames "bk" "Jane Doe" [johnDoe] = some johnDoe := by
  decide

/-! ## Idempotence analysis of `normalizeCharacterName` (C9) -/

theorem splitP_tokens_false (p : Char → Bool) (l : List Char) :
    ∀ t ∈ splitP p l, ∀ c ∈ t, p c = false := by
  unfold splitP
  induction l with
  | nil =>
    rw [List.splitOnP_nil]
    intro t ht c hc
    rw [List.mem_singleton] at ht
    subst ht
    exact absurd hc (List.not_mem_nil c)
  | cons a as ih =>
    rw [List.splitOnP_cons]
    by_cases hpa : p a
    · rw [if_pos hpa]
      intro t ht c hc
      rcases List.mem_cons.mp ht with rfl | ht2
      · exact absurd hc (List.not_mem_nil c)
      · exact ih t ht2 c hc
    · rw [if_neg hpa]
      cases hsp : as.splitOnP p with
      | nil => exact absurd hsp (List.splitOnP_ne_nil p as)
      | cons t0 ts =>
        intro t ht c hc
        rw [List.modifyHead] at ht
        rcases List.mem_cons.mp ht with rfl | ht2
        · rcases List.mem_cons.mp hc with rfl | hc2
          · simpa using hpa
          · exact ih t0 (by rw [hsp]; exact List.mem_cons_self t0 ts) c hc2
        · exact ih t (by rw [hsp]; exact List.mem_cons_of_mem t0 ht2) c hc

theorem intercalate_nil_parts (s : List Char) : List.intercalate s [] = [] := by
  simp [List.intercalate]

theorem intercalate_single (s : List Char) (t : List Char) :
    List.intercalate s [t] = t := by
  simp [List.intercalate]

theorem intercalate_cons_cons (s t t2 : List Char) (rest : List (List Char)) :
    List.intercalate s (t :: t2 :: rest) =
      t ++ s ++ List.intercalate s (t2 :: rest) := by
  simp [List.intercalate, List.intersperse_cons_cons]

theorem splitP_intercalate (p : Char → Bool) (sep : Char) (hsep : p sep = true)
    (parts : List (List Char)) (hne : parts ≠ [])
    (hws : ∀ t ∈ parts, ∀ c ∈ t, p c = false) :
    splitP p (List.intercalate [sep] parts) = parts := by
  induction parts with
  | nil => exact absurd rfl hne
  | cons t rest ih =>
    cases rest with
    | nil =>
      rw [intercalate_single]
      exact List.splitOnP_eq_single _ _ (fun c hc =>
        by simp [hws t (List.mem_cons_self t []) c hc])
    | cons t2 rest2 =>
      rw [intercalate_cons_cons, List.append_assoc, List.singleton_append]
      unfold splitP
      rw [List.splitOnP_first p t (fun c hc =>
          by simp [hws t (List.mem_cons_self t _) c hc]) sep hsep]
      have ih2 := ih (by simp)
        (fun x hx => hws x (List.mem_cons_of_mem t hx))
      unfold splitP at ih2
      rw [ih2]

theorem dropWhile_intercalate_tokens (parts : List (List Char))
    (hne : ∀ t ∈ parts, t ≠ [])
    (hws : ∀ t ∈ parts, ∀ c ∈ t, wsP c = false) :
    (List.intercalate [' '] parts).dropWhile wsP =
      List.intercalate [' '] parts := by
  cases parts with
  | nil => rw [intercalate_nil_parts]; rfl
  | cons t rest =>
    have hhead : ∃ X, List.intercalate [' '] (t :: rest) = t ++ X := by
      cases rest with
      | nil => exact ⟨[], by rw [intercalate_single, List.append_nil]⟩
      | cons t2 r2 =>
        exact ⟨[' '] ++ List.intercalate [' '] (t2 :: r2),
          by rw [intercalate_cons_cons, List.append_assoc]⟩
    obtain ⟨X, hX⟩ := hhead
    rw [hX]
    cases ht : t with
    | nil => exact absurd ht (hne t (List.mem_cons_self t rest))
    | cons c t2 =>
      have hct : c ∈ t := by rw [ht]; exact List.mem_cons_self c t2
      have hc : wsP c = false := hws t (List.mem_cons_self t rest) c hct
      rw [List.cons_append, List.dropWhile_cons, if_neg (by simp [hc])]

theorem intercalate_reverse_head (parts : List (List Char))
    (hplist : parts ≠ []) (hne : ∀ t ∈ parts, t ≠ [])
    (hws : ∀ t ∈ parts, ∀ c ∈ t, wsP c = false) :
    ∃ d m, (List.intercalate [' '] parts).reverse = d :: m ∧
      wsP d = false := by
  induction parts with
  | nil => exact absurd rfl hplist
  | cons t rest ih =>
    cases rest with
    | nil =>
      rw [intercalate_single]
      cases hr : t.reverse with
      | nil =>
        exact absurd (List.reverse_eq_nil_iff.mp hr)
          (hne t (List.mem_cons_self t []))
      | cons d m =>
        have hdr : d ∈ t.reverse := by rw [hr]; exact List.mem_cons_self d m
        exact ⟨d, m, rfl, hws t (List.mem_cons_self t []) d
          (List.mem_reverse.mp hdr)⟩
    | cons t2 r2 =>
      rw [intercalate_cons_cons]
      obtain ⟨d, m, hdm, hd⟩ := ih (by simp)
        (fun x hx => hne x (List.mem_cons_of_mem t hx))
        (fun x hx => hws x (List.mem_cons_of_mem t hx))
      refine ⟨d, m ++ ' ' :: t.reverse, ?_, hd⟩
      rw [List.reverse_append, List.reverse_append, hdm]
      simp

theorem trimL_intercalate_tokens (parts : List (List Char))
    (hne : ∀ t ∈ parts, t ≠ [])
    (hws : ∀ t ∈ parts, ∀ c ∈ t, wsP c = false) :
    trimL (List.intercalate [' '] parts) = List.intercalate [' '] parts := by
  cases hp : parts with
  | nil => rw [intercalate_nil_parts]; rfl
  | cons t rest =>
    rw [← hp]
    unfold trimL
    rw [dropWhile_intercalate_tokens parts hne hws]
    obtain ⟨d, m, hdm, hd⟩ := intercalate_reverse_head parts
      (by rw [hp]; exact List.cons_ne_nil t rest) hne hws
    rw [hdm, List.dropWhile_cons, if_neg (by simp [hd]), ← hdm,
      List.reverse_reverse]

theorem normalizeL_idem_of_fix (l : List Char)
    (h1 : stripHonorificL (normalizeL l) = normalizeL l)
    (h2 : stripSuffixL (normalizeL l) = normalizeL l) :
    normalizeL (normalizeL l) = normalizeL l := by
  have hy : normalizeL l = List.intercalate [' ']
      ((splitP wsP (trimL (stripSuffixL (stripHonorificL l)))).filter
        (fun t => t.length > 1)) := rfl
  have hws : ∀ t ∈ (splitP wsP (trimL (stripSuffixL
      (stripHonorificL l)))).filter (fun t => t.length > 1),
      ∀ c ∈ t, wsP c = false :=
    fun t ht => splitP_tokens_false wsP _ t (List.mem_filter.mp ht).1
  have hlen : ∀ t ∈ (splitP wsP (trimL (stripSuffixL
      (stripHonorificL l)))).filter (fun t => t.length > 1),
      t.length > 1 :=
    fun t ht => by simpa using (List.mem_filter.mp ht).2
  have hne : ∀ t ∈ (splitP wsP (trimL (stripSuffixL
      (stripHonorificL l)))).filter (fun t => t.length > 1), t ≠ [] := by
    intro t ht habs
    have hl2 := hlen t ht
    rw [habs] at hl2
    simp at hl2
  have hstep : normalizeL (normalizeL l) = List.intercalate [' ']
      ((splitP wsP (trimL (stripSuffixL (stripHonorificL
        (normalizeL l))))).filter (fun t => t.length > 1)) := rfl
  rw [hstep, h1, h2]
  conv_lhs => rw [hy]
  rw [trimL_intercalate_tokens _ hne hws]
  by_cases hp : (splitP wsP (trimL (stripSuffixL
      (stripHonorificL l)))).filter (fun t => t.length > 1) = []
  · rw [hp, intercalate_nil_parts]
    rw [hy, hp, intercalate_nil_parts]
    rfl
  · rw [splitP_intercalate wsP ' ' (by rfl) _ hp hws]
    rw [List.filter_eq_self.mpr (fun t ht => by simpa using hlen t ht)]
    rw [hy]

/-- C9 (amended).  `normalizeCharacterName` is idempotent on every input
whose normalized form is itself a fixpoint of the honorific strip and of the
suffix strip — i.e. the normalized form does not again begin with an
honorific token followed by whitespace, or end with a whitespace-separated
generational suffix.  It is not idempotent in general: each application
strips only one leading honorific layer (see the counterexample). -/
theorem normalize_idem_C9 (x : String)
    (h1 : stripHonorificL (normalizeCharacterName x).data =
      (normalizeCharacterName x).data)
    (h2 : stripSuffixL (normalizeCharacterName x).data =
      (normalizeCharacterName x).data) :
    normalizeCharacterName (normalizeCharacterName x) =
      normalizeCharacterName x := by
  unfold normalizeCharacterName
  exact congrArg String.mk (normalizeL_idem_of_fix x.data h1 h2)

/-- Witness for C9: "Dr John Smith" normalizes to "John Smith", which
re-normalizes to itself. -/
theorem normalize_idem_C9_witness :
    normalizeCharacterName (normalizeCharacterName "Dr John Smith") =
      normalizeCharacterName "Dr John Smith" :=
  normalize_idem_C9 "Dr John Smith" (by decide) (by decide)

/-- Counterexample for C9 as originally claimed: the honorific regex strips
one layer per call, so `"Mr Mr Smith"` normalizes to `"Mr Smith"` but
normalizing again gives `"Smith"` — `normalize ∘ normalize ≠ normalize`. -/
theorem normalize_idem_C9_counterexample :
    normalizeCharacterName "Mr Mr Smith" = "Mr Smith" ∧
    normalizeCharacterName (normalizeCharacterName "Mr Mr Smith") =
      "Smith" ∧
    ¬ normalizeCharacterName (normalizeCharacterName "Mr Mr Smith") =
      normalizeCharacterName "Mr Mr Smith" := by
  refine ⟨by decide, by decide, by decide⟩
